import Mathlib

/-!
Verification of the Run-Log-Analyzer pipeline (src/analyze_runlog.py).

The script is a single-pass ETL job over a pandas DataFrame.  We embed the
row-level fragment the claims are about:

* a table is a `List RawRow`; a cell is `Option Str` (`none` models NaN);
* `pd.to_datetime(_, errors := coerce)` is an abstract parse function
  `Str → Option Nat` applied cell-wise (`normalize_datetime`);
* `filter_stops` filters on the `Aborted` column, projects/renames, normalizes
  `user_name`, drops rows with an unparsed timestamp, and sorts by timestamp;
* `analyze_consecutive_stops_by_test_stage` re-sorts by
  (test_name, stage_serial, test_datetime) and scans, assigning `sequence_id`
  and `sequence_index` exactly as the Python loop does (including the
  per-key counter dictionary, modelled as a function `Key → Nat`);
* `summarize_sequences_by_test_stage` groups by `sequence_id` (pandas groupby
  sorts the keys) and aggregates min/max/max/first like the `.agg` call;
* `charts_emitted` records which chart files `main` renders (bar charts are
  skipped when the stop table is empty, the histogram when the summary is).

Python string operations are embedded over `List Char`: `str.strip()` drops
ASCII whitespace at both ends, `str.lower()` maps A-Z to a-z, and
`str.casefold()` agrees with `lower()` on the ASCII data handled here.
`str(x)` renders the missing value NaN as the literal string "nan".
-/

namespace RunLog

/-- Python strings, modelled as lists of characters. -/
abbrev Str := List Char

/-- A pandas cell: a string value, or `none` for NaN (missing). -/
abbrev Cell := Option Str

/-- Python `str()` rendering of a cell; NaN renders as the literal `"nan"`
(this is what `.astype(str)` does to missing values). -/
def cellToStr : Cell → Str
  | none => "nan".data
  | some s => s

/-- Whitespace as stripped by Python `str.strip()` (ASCII subset), by
character code: space, tab, newline, carriage return, vertical tab, form
feed. -/
def pyIsSpace (c : Char) : Bool :=
  c.toNat = 32 ∨ c.toNat = 9 ∨ c.toNat = 10 ∨ c.toNat = 13 ∨ c.toNat = 11 ∨ c.toNat = 12

/-- Python `str.strip()`: drop leading and trailing whitespace. -/
def pyStrip (s : Str) : Str :=
  ((s.dropWhile pyIsSpace).reverse.dropWhile pyIsSpace).reverse

/-- Lower-case one character (ASCII: A-Z becomes a-z, all else unchanged). -/
def charLower (c : Char) : Char :=
  if 65 ≤ c.toNat ∧ c.toNat ≤ 90 then Char.ofNat (c.toNat + 32) else c

/-- Python `str.lower()` (ASCII fragment). -/
def pyLower (s : Str) : Str := s.map charLower

/-- Python `str.casefold()`; on the ASCII data of this pipeline it coincides
with `lower()`. -/
def pyCasefold (s : Str) : Str := pyLower s

/-- A string whose first character (if any) is not whitespace. -/
def noLeadSpace : Str → Prop
  | [] => True
  | c :: _ => pyIsSpace c = false

/-- One row of the source RunLog table, restricted to the six columns the
script reads: Aborted, User Name, Test Name, Test Date Time, Part Number,
Stage Serial Number. -/
structure RawRow where
  aborted : Cell
  user : Cell
  testName : Cell
  testDatetime : Cell
  partNumber : Cell
  stageSerial : Cell
  deriving DecidableEq

/-- A Stop Event: a filtered row projected to the five canonical columns.
`user_name` has been through `.astype(str).str.strip().str.lower()`, so it is
a plain string; `test_datetime` is the parsed timestamp (rows where parsing
failed have been dropped). -/
structure StopEvent where
  user_name : Str
  test_name : Cell
  test_datetime : Nat
  part_number : Cell
  stage_serial : Cell
  deriving DecidableEq

/-- A Stop Event augmented with the two sequence columns the analyzer adds. -/
structure SeqRow extends StopEvent where
  sequence_id : Nat
  sequence_index : Nat
  deriving DecidableEq

/-- One row of the Sequence Summary table produced by the groupby/agg. -/
structure SummaryRow where
  sequence_id : Nat
  start_time : Nat
  end_time : Nat
  num_stops : Nat
  user_name : Str
  test_name : Cell
  part_number : Cell
  stage_serial : Cell
  deriving DecidableEq

/-- `pd.to_datetime(col, errors="coerce")` at cell level: a missing cell stays
missing, an unparseable string becomes missing, never an error.  The actual
datetime parser is the abstract `parse` parameter. -/
def normalize_datetime (parse : Str → Option Nat) : Cell → Option Nat
  | none => none
  | some s => parse s

/-- The row filter of `filter_stops`:
`df[COL_ABORTED].astype(str).str.strip().str.casefold() == STOP_VALUE.casefold()`
with `STOP_VALUE = "Stopped"`. -/
def stopPred (r : RawRow) : Bool :=
  pyCasefold (pyStrip (cellToStr r.aborted)) = pyCasefold "Stopped".data

/-- Projection/renaming to the five canonical columns plus the user-name
normalization `.astype(str).str.strip().str.lower()`; `t` is the parsed
timestamp of the row. -/
def projectRow (r : RawRow) (t : Nat) : StopEvent :=
  { user_name := pyLower (pyStrip (cellToStr r.user)),
    test_name := r.testName,
    test_datetime := t,
    part_number := r.partNumber,
    stage_serial := r.stageSerial }

/-- Comparison of the final `sort_values("test_datetime")`.  The script's
sort is a library comparison sort; only the ordering relation and the fact
that the output is a sorted permutation are observable, so we model every
`sort_values` call with `List.insertionSort` over the corresponding relation. -/
def timeRel (a b : StopEvent) : Prop := a.test_datetime ≤ b.test_datetime

instance : DecidableRel timeRel := fun a b => Nat.decLe a.test_datetime b.test_datetime

instance : IsTotal StopEvent timeRel :=
  ⟨fun a b => Nat.le_total a.test_datetime b.test_datetime⟩

instance : IsTrans StopEvent timeRel :=
  ⟨fun _ _ _ h1 h2 => Nat.le_trans h1 h2⟩

/-- The Stop Event rows of `filter_stops` before the final sort: stop rows,
timestamp column normalized, projected/renamed, user name normalized, rows
without a parsed timestamp dropped. -/
def projectedOf (parse : Str → Option Nat) (df : List RawRow) : List StopEvent :=
  (df.filter stopPred).filterMap (fun r =>
    (normalize_datetime parse r.testDatetime).map (fun t => projectRow r t))

/-- `filter_stops`: select the stop rows, normalize the timestamp column,
project/rename, normalize user names, drop rows without a parsed timestamp,
and sort ascending by timestamp. -/
def filter_stops (parse : Str → Option Nat) (df : List RawRow) : List StopEvent :=
  List.insertionSort timeRel (projectedOf parse df)

/-- The grouping key of the sequence analyzer:
`(str(row["test_name"]), str(row["stage_serial"]))`. -/
abbrev Key := Str × Str

/-- Key of a Stop Event, via the Python `str()` rendering of the two cells
(exactly how the loop in `analyze_consecutive_stops_by_test_stage` builds
its tuple). -/
def seqKey (e : StopEvent) : Key := (cellToStr e.test_name, cellToStr e.stage_serial)

/-- Lexicographic string order (used by the multi-column `sort_values`). -/
def strLe : Str → Str → Bool
  | [], _ => true
  | _ :: _, [] => false
  | c :: s, d :: t => if c = d then strLe s t else decide (c < d)

/-- Comparator of `sort_values(["test_name", "stage_serial", "test_datetime"])`;
cells are compared through their string rendering, matching the grouping key
the scan uses. -/
def keyLe (a b : StopEvent) : Bool :=
  if cellToStr a.test_name = cellToStr b.test_name then
    (if cellToStr a.stage_serial = cellToStr b.stage_serial then
      decide (a.test_datetime ≤ b.test_datetime)
    else strLe (cellToStr a.stage_serial) (cellToStr b.stage_serial))
  else strLe (cellToStr a.test_name) (cellToStr b.test_name)

/-- The multi-column sort order, as a relation. -/
def keyRel (a b : StopEvent) : Prop := keyLe a b = true

instance : DecidableRel keyRel := fun a b => instDecidableEqBool (keyLe a b) true

/-- The re-sort the analyzer performs before scanning. -/
def sort_by_test_stage_time (stops : List StopEvent) : List StopEvent :=
  List.insertionSort keyRel stops

/-- The sequential scan of `analyze_consecutive_stops_by_test_stage`:
`cur` is `current_seq`, `lastKey` is `last_key` (`none` models the initial
`(None, None)`, which never equals a string pair), and `m` is the dictionary
`last_seq_index_for_key` (modelled as a total function; its initial values are
never read, because every key is written at its first, boundary, occurrence
before it is ever read in the repeat branch). -/
def seqScan (cur : Nat) (lastKey : Option Key) (m : Key → Nat) :
    List StopEvent → List SeqRow
  | [] => []
  | e :: es =>
    let k := seqKey e
    if some k ≠ lastKey then
      { toStopEvent := e, sequence_id := cur + 1, sequence_index := 1 }
        :: seqScan (cur + 1) (some k) (fun k2 => if k2 = k then 1 else m k2) es
    else
      { toStopEvent := e, sequence_id := cur, sequence_index := m k + 1 }
        :: seqScan cur (some k) (fun k2 => if k2 = k then m k + 1 else m k2) es

/-- `analyze_consecutive_stops_by_test_stage`: on an empty input return the
empty table (the Python code only attaches the two empty typed columns); else
re-sort by (test_name, stage_serial, test_datetime) and scan. -/
def analyze_consecutive_stops_by_test_stage (stops : List StopEvent) : List SeqRow :=
  if stops.isEmpty then []
  else seqScan 0 none (fun _ => 0) (sort_by_test_stage_time stops)

/-- pandas `GroupBy.first` on a cell column: the first **non-null** entry of
the column within the group, or NaN when every entry is missing.  The string
`"first"` in `.agg` dispatches to `GroupBy.first`, which skips nulls — it is
not the group's head row. -/
def firstCell (col : List Cell) : Cell := (col.filterMap id).head?

/-- The `.agg` of one `sequence_id` group: min/max of `test_datetime`, max of
`sequence_index`, and pandas-`first` (first non-null, `firstCell`) of the
categorical cell columns, evaluated over the group in table order (which
`List.filter` preserves).  The `user_name` column went through
`.astype(str)`, so it holds no nulls and its first non-null entry is the
head row's value.  `none` when the group is empty (such a key is never
produced by the groupby). -/
def aggGroup (rows : List SeqRow) (k : Nat) : Option SummaryRow :=
  match rows.filter (fun r => r.sequence_id == k) with
  | [] => none
  | g :: gs => some {
      sequence_id := k,
      start_time := gs.foldl (fun a r => min a r.test_datetime) g.test_datetime,
      end_time := gs.foldl (fun a r => max a r.test_datetime) g.test_datetime,
      num_stops := gs.foldl (fun a r => max a r.sequence_index) g.sequence_index,
      user_name := g.user_name,
      test_name := firstCell ((g :: gs).map (fun r => r.test_name)),
      part_number := firstCell ((g :: gs).map (fun r => r.part_number)),
      stage_serial := firstCell ((g :: gs).map (fun r => r.stage_serial)) }

/-- `summarize_sequences_by_test_stage`: group by `sequence_id` (pandas sorts
the distinct group keys ascending), aggregating each group with `aggGroup`. -/
def summarize_sequences_by_test_stage (rows : List SeqRow) : List SummaryRow :=
  (List.insertionSort (fun a b => a ≤ b)
    ((rows.map (fun r => r.sequence_id)).dedup)).filterMap (aggGroup rows)

/-- Which chart files `main` renders: the four bar charts are skipped when the
Stop Event table is empty, and `plot_sequence_histogram` returns without
writing when the summary is empty. -/
def charts_emitted (stops : List StopEvent) (seq_summary : List SummaryRow) :
    List String :=
  (if stops.isEmpty then []
   else ["stops_per_user.html", "stops_per_test.html",
         "stops_per_part.html", "stops_per_stage.html"])
    ++ (if seq_summary.isEmpty then [] else ["consecutive_stops_hist.html"])

/-- Relation between two consecutive rows of the analyzer output: a new
sequence starts (id increments, index resets to 1) exactly when the
(test_name, stage_serial) key changes; otherwise the id is kept and the
index increments by 1.  No other condition appears. -/
def chainStep (a b : SeqRow) : Prop :=
  if seqKey b.toStopEvent = seqKey a.toStopEvent then
    b.sequence_id = a.sequence_id ∧ b.sequence_index = a.sequence_index + 1
  else
    b.sequence_id = a.sequence_id + 1 ∧ b.sequence_index = 1

/-! ### Concrete data used to exercise the pipeline -/

/-- A concrete timestamp parser for examples: accepts a single decimal digit. -/
def digitParse : Str → Option Nat
  | [c] => if 48 ≤ c.toNat ∧ c.toNat ≤ 57 then some (c.toNat - 48) else none
  | _ => none

/-- A stop row with shouting, padded status and user cells. -/
def demoRow1 : RawRow :=
  { aborted := some " STOPPED ".data, user := some " Alice ".data,
    testName := some "T1".data, testDatetime := some "3".data,
    partNumber := some "P1".data, stageSerial := some "S1".data }

/-- A stop row whose user cell is missing (NaN). -/
def demoRow2 : RawRow :=
  { aborted := some "Stopped".data, user := none,
    testName := some "T1".data, testDatetime := some "5".data,
    partNumber := some "P1".data, stageSerial := some "S1".data }

/-- A stop row whose timestamp cell does not parse. -/
def demoRow3 : RawRow :=
  { aborted := some "Stopped".data, user := some "Bob".data,
    testName := some "T2".data, testDatetime := some "oops".data,
    partNumber := some "P2".data, stageSerial := some "S2".data }

/-- Three Stop Events: two sharing (T1, S1), one with key (T2, S2). -/
def demoStops : List StopEvent :=
  [ { user_name := "alice".data, test_name := some "T1".data, test_datetime := 1,
      part_number := some "P1".data, stage_serial := some "S1".data },
    { user_name := "bob".data, test_name := some "T1".data, test_datetime := 2,
      part_number := some "P1".data, stage_serial := some "S1".data },
    { user_name := "bob".data, test_name := some "T2".data, test_datetime := 3,
      part_number := some "P2".data, stage_serial := some "S2".data } ]

/-- The analyzer output on `demoStops`. -/
def demoOut : List SeqRow := analyze_consecutive_stops_by_test_stage demoStops

/-- The summary row of sequence 1 of `demoOut`. -/
def demoSummaryRow : SummaryRow :=
  { sequence_id := 1, start_time := 1, end_time := 2, num_stops := 2,
    user_name := "alice".data, test_name := some "T1".data,
    part_number := some "P1".data, stage_serial := some "S1".data }

/-- Two stop events forming one (T1, S1) sequence whose first row has a
missing part_number; the second row carries P9. -/
def ctStops : List StopEvent :=
  [ { user_name := "alice".data, test_name := some "T1".data, test_datetime := 1,
      part_number := none, stage_serial := some "S1".data },
    { user_name := "bob".data, test_name := some "T1".data, test_datetime := 2,
      part_number := some "P9".data, stage_serial := some "S1".data } ]

/-- The summary row the pipeline produces on `ctStops`: its part_number is
P9, the group's first non-null entry, not the group head's missing cell. -/
def ctSummaryRow : SummaryRow :=
  { sequence_id := 1, start_time := 1, end_time := 2, num_stops := 2,
    user_name := "alice".data, test_name := some "T1".data,
    part_number := some "P9".data, stage_serial := some "S1".data }

/-! ### Helper lemmas -/

theorem length_filterMap_isSome {α β : Type} (f : α → Option β) (l : List α) :
    (l.filterMap f).length = (l.filter (fun x => (f x).isSome)).length := by
  induction l with
  | nil => rfl
  | cons a l ih =>
    cases h : f a with
    | none => simp [List.filterMap_cons, List.filter_cons, h, ih]
    | some b => simp [List.filterMap_cons, List.filter_cons, h, ih]

/-- Membership in the Stop Event collection, characterised by an originating
input row. -/
theorem mem_filter_stops (parse : Str → Option Nat) (df : List RawRow) (e : StopEvent) :
    e ∈ filter_stops parse df ↔
      ∃ r ∈ df, stopPred r = true ∧
        ∃ t, normalize_datetime parse r.testDatetime = some t ∧ e = projectRow r t := by
  unfold filter_stops projectedOf
  rw [(List.perm_insertionSort timeRel _).mem_iff]
  simp only [List.mem_filterMap, List.mem_filter, Option.map_eq_some']
  constructor
  · rintro ⟨r, ⟨hr, hp⟩, t, ht, he⟩
    exact ⟨r, hr, hp, t, ht, he.symm⟩
  · rintro ⟨r, hr, hp, t, ht, he⟩
    exact ⟨r, ⟨hr, hp⟩, t, ht, he.symm⟩

/-- The scan never edits the five original columns of a row. -/
theorem seqScan_map_toStopEvent (es : List StopEvent) :
    ∀ (cur : Nat) (lastKey : Option Key) (m : Key → Nat),
      (seqScan cur lastKey m es).map (fun r => r.toStopEvent) = es := by
  induction es with
  | nil => intro cur lastKey m; rfl
  | cons e es ih =>
    intro cur lastKey m
    by_cases h : some (seqKey e) ≠ lastKey
    · simp [seqScan, h, ih]
    · simp [seqScan, h, ih]

theorem charToNat_ofNat_valid (n : Nat) (h : n.isValidChar) : (Char.ofNat n).toNat = n := by
  simp [Char.ofNat, h, Char.ofNatAux, Char.toNat, UInt32.toNat]

theorem charLower_toNat (c : Char) :
    (charLower c).toNat =
      if 65 ≤ c.toNat ∧ c.toNat ≤ 90 then c.toNat + 32 else c.toNat := by
  unfold charLower
  split
  · next h => exact charToNat_ofNat_valid _ (Or.inl (by omega))
  · rfl

theorem charLower_eq_self_of_not (d : Char) (hd : ¬(65 ≤ d.toNat ∧ d.toNat ≤ 90)) :
    charLower d = d := by
  unfold charLower
  exact if_neg hd

theorem charLower_idem (c : Char) : charLower (charLower c) = charLower c := by
  apply charLower_eq_self_of_not
  rw [charLower_toNat]
  split
  · next h => omega
  · next h => exact h

theorem pyLower_idem (s : Str) : pyLower (pyLower s) = pyLower s := by
  simp [pyLower, List.map_map, Function.comp, charLower_idem]

theorem pyIsSpace_charLower (c : Char) : pyIsSpace (charLower c) = pyIsSpace c := by
  have h := charLower_toNat c
  simp only [pyIsSpace]
  rw [decide_eq_decide, h]
  split
  · next hc => omega
  · exact Iff.rfl

theorem dropWhile_map_charLower (l : Str) :
    (l.map charLower).dropWhile pyIsSpace = (l.dropWhile pyIsSpace).map charLower := by
  induction l with
  | nil => rfl
  | cons c l ih =>
    cases h : pyIsSpace c with
    | true => simp [List.dropWhile_cons, pyIsSpace_charLower, h, ih]
    | false => simp [List.dropWhile_cons, pyIsSpace_charLower, h]

theorem pyStrip_pyLower (s : Str) : pyStrip (pyLower s) = pyLower (pyStrip s) := by
  simp only [pyStrip, pyLower]
  rw [dropWhile_map_charLower, ← List.map_reverse, dropWhile_map_charLower,
    ← List.map_reverse]

theorem noLeadSpace_dropWhile (l : Str) : noLeadSpace (l.dropWhile pyIsSpace) := by
  induction l with
  | nil => trivial
  | cons c l ih =>
    cases h : pyIsSpace c with
    | true => simpa [List.dropWhile_cons, h] using ih
    | false =>
      rw [List.dropWhile_cons, if_neg (by simp [h])]
      exact h

theorem dropWhile_eq_self_of_noLead {l : Str} (h : noLeadSpace l) :
    l.dropWhile pyIsSpace = l := by
  cases l with
  | nil => rfl
  | cons c l =>
    have hc : pyIsSpace c = false := h
    rw [List.dropWhile_cons, if_neg (by simp [hc])]

theorem noLead_reverse_dropWhile_reverse {l : Str} (h : noLeadSpace l) :
    noLeadSpace ((l.reverse.dropWhile pyIsSpace).reverse) := by
  cases l with
  | nil => trivial
  | cons c t =>
    have hc : pyIsSpace c = false := h
    rw [List.reverse_cons, List.dropWhile_append]
    split
    · rw [show List.dropWhile pyIsSpace [c] = [c] from by
        rw [List.dropWhile_cons, if_neg (by simp [hc])]]
      exact hc
    · rw [List.reverse_append]
      exact hc

theorem pyStrip_eq_self {l : Str} (h1 : noLeadSpace l) (h2 : noLeadSpace l.reverse) :
    pyStrip l = l := by
  unfold pyStrip
  rw [dropWhile_eq_self_of_noLead h1, dropWhile_eq_self_of_noLead h2, List.reverse_reverse]

theorem noLeadSpace_pyStrip (s : Str) : noLeadSpace (pyStrip s) := by
  unfold pyStrip
  exact noLead_reverse_dropWhile_reverse (noLeadSpace_dropWhile s)

theorem noLeadSpace_reverse_pyStrip (s : Str) : noLeadSpace (pyStrip s).reverse := by
  unfold pyStrip
  rw [List.reverse_reverse]
  exact noLeadSpace_dropWhile _

theorem pyStrip_idem (s : Str) : pyStrip (pyStrip s) = pyStrip s :=
  pyStrip_eq_self (noLeadSpace_pyStrip s) (noLeadSpace_reverse_pyStrip s)

/-- The scan satisfies `chainStep` between every two consecutive rows,
starting from any correctly-initialised previous row. -/
theorem seqScan_chain (es : List StopEvent) :
    ∀ (m : Key → Nat) (prev : SeqRow),
      m (seqKey prev.toStopEvent) = prev.sequence_index →
      List.Chain chainStep prev
        (seqScan prev.sequence_id (some (seqKey prev.toStopEvent)) m es) := by
  induction es with
  | nil => intro m prev _; exact List.Chain.nil
  | cons e es ih =>
    intro m prev hm
    by_cases hk : seqKey e = seqKey prev.toStopEvent
    · have hcond : ¬(some (seqKey e) ≠ some (seqKey prev.toStopEvent)) := by simp [hk]
      simp only [seqScan, if_neg hcond]
      have hstep : chainStep prev
          { toStopEvent := e, sequence_id := prev.sequence_id,
            sequence_index := m (seqKey e) + 1 } := by
        simp [chainStep, hk, hm]
      exact List.Chain.cons hstep (ih _ _ (by simp))
    · have hcond : some (seqKey e) ≠ some (seqKey prev.toStopEvent) := by simp [hk]
      simp only [seqScan, if_pos hcond]
      have hstep : chainStep prev
          { toStopEvent := e, sequence_id := prev.sequence_id + 1,
            sequence_index := 1 } := by
        simp [chainStep, hk]
      exact List.Chain.cons hstep (ih _ _ (by simp))

/-- The analyzer output is a `chainStep` chain whose first row, when present,
carries sequence_id 1 and sequence_index 1. -/
theorem analyze_chain (stops : List StopEvent) :
    List.Chain' chainStep (analyze_consecutive_stops_by_test_stage stops) ∧
      ∀ a l, analyze_consecutive_stops_by_test_stage stops = a :: l →
        a.sequence_id = 1 ∧ a.sequence_index = 1 := by
  cases stops with
  | nil => exact ⟨trivial, by intro a l h; cases h⟩
  | cons b bs =>
    have h1 : analyze_consecutive_stops_by_test_stage (b :: bs)
        = seqScan 0 none (fun _ => 0) (sort_by_test_stage_time (b :: bs)) := by
      simp [analyze_consecutive_stops_by_test_stage]
    cases hL : sort_by_test_stage_time (b :: bs) with
    | nil => rw [h1, hL]; exact ⟨trivial, by intro a l h; cases h⟩
    | cons e es =>
      rw [h1, hL]
      have hcond : some (seqKey e) ≠ (none : Option Key) := by simp
      simp only [seqScan, if_pos hcond]
      constructor
      · exact seqScan_chain es _
          { toStopEvent := e, sequence_id := 0 + 1, sequence_index := 1 } (by simp)
      · intro a l h
        cases h
        exact ⟨rfl, rfl⟩

/-- A chain of naturals that moves by steps of 0 or +1 visits exactly the
interval from its head to its last element. -/
theorem chain_nat_run (l : List Nat) :
    ∀ a, List.Chain (fun x y => y = x ∨ y = x + 1) a l →
      ∀ j, (j ∈ a :: l ↔ a ≤ j ∧ j ≤ (a :: l).getLastD 0) := by
  induction l with
  | nil =>
    intro a _ j
    rw [List.getLastD_cons]
    simp only [List.mem_singleton, List.getLastD]
    omega
  | cons b l ih =>
    intro a hch j
    cases hch with
    | cons hab hch2 =>
      have hIH := ih b hch2 j
      have hb := (ih b hch2 b).mp (List.mem_cons_self b l)
      rw [List.getLastD_cons] at hIH
      rw [List.getLastD_cons] at hb
      rw [List.getLastD_cons, List.getLastD_cons]
      simp only [List.mem_cons] at hIH hb ⊢
      constructor
      · rintro (rfl | hj)
        · refine ⟨Nat.le_refl j, ?_⟩
          omega
        · have h3 := hIH.mp hj
          omega
      · intro h
        by_cases hja : j = a
        · exact Or.inl hja
        · exact Or.inr (hIH.mpr (by omega))

/-- Within the scan started at `cur` with live key `k` and counters `m`, the
rows carrying a given sequence_id `j` have sequence_index values forming a
contiguous run: continuing from `m k + 1` for the live id, from 1 for every
later id, and no row carries an id below `cur`. -/
theorem seqScan_filter_index (es : List StopEvent) :
    ∀ (cur : Nat) (k : Key) (m : Key → Nat) (j : Nat),
      (j < cur → (seqScan cur (some k) m es).filter (fun r => r.sequence_id == j) = []) ∧
      ((seqScan cur (some k) m es).filter (fun r => r.sequence_id == j)).map
          (fun r => r.sequence_index)
        = List.range' (if j = cur then m k + 1 else 1)
            (((seqScan cur (some k) m es).filter (fun r => r.sequence_id == j)).length) := by
  induction es with
  | nil => intro cur k m j; exact ⟨fun _ => rfl, rfl⟩
  | cons e es ih =>
    intro cur k m j
    by_cases hk : seqKey e = k
    · subst hk
      have hcond : ¬(some (seqKey e) ≠ some (seqKey e)) := by simp
      simp only [seqScan, if_neg hcond]
      obtain ⟨ihE, ihM⟩ := ih cur (seqKey e)
        (fun k2 => if k2 = seqKey e then m (seqKey e) + 1 else m k2) j
      constructor
      · intro hj
        have hbe : (cur == j) = false := beq_eq_false_iff_ne.mpr (by omega)
        simp only [List.filter_cons, hbe, Bool.false_eq_true, if_false]
        exact ihE hj
      · by_cases hj : j = cur
        · subst hj
          rw [List.filter_cons, if_pos (by simp)]
          rw [List.map_cons, List.length_cons]
          rw [if_pos rfl, if_pos rfl] at ihM
          rw [if_pos rfl, List.range'_succ, ihM]
        · have hbe : (cur == j) = false := beq_eq_false_iff_ne.mpr (fun h => hj h.symm)
          simp only [List.filter_cons, hbe, Bool.false_eq_true, if_false]
          rw [if_neg hj]
          rw [if_neg hj] at ihM
          exact ihM
    · have hcond : some (seqKey e) ≠ some k := by simp [hk]
      simp only [seqScan, if_pos hcond]
      obtain ⟨ihE, ihM⟩ := ih (cur + 1) (seqKey e)
        (fun k2 => if k2 = seqKey e then 1 else m k2) j
      constructor
      · intro hj
        have hbe : ((cur + 1) == j) = false := beq_eq_false_iff_ne.mpr (by omega)
        simp only [List.filter_cons, hbe, Bool.false_eq_true, if_false]
        exact ihE (by omega)
      · by_cases hj : j = cur + 1
        · subst hj
          rw [List.filter_cons, if_pos (by simp)]
          rw [List.map_cons, List.length_cons]
          rw [if_pos rfl, if_pos rfl] at ihM
          rw [if_neg (by omega), List.range'_succ, ihM]
        · have hbe : ((cur + 1) == j) = false := beq_eq_false_iff_ne.mpr (fun h => hj h.symm)
          simp only [List.filter_cons, hbe, Bool.false_eq_true, if_false]
          by_cases hjc : j = cur
          · have hE := ihE (by omega)
            rw [hE]
            simp
          · rw [if_neg hjc]
            rw [if_neg hj] at ihM
            exact ihM

/-- In the analyzer output, the rows of each sequence_id carry sequence_index
values exactly 1, 2, ..., N where N is the number of such rows. -/
theorem analyze_filter_index (stops : List StopEvent) :
    ∀ j, ((analyze_consecutive_stops_by_test_stage stops).filter
        (fun r => r.sequence_id == j)).map (fun r => r.sequence_index)
      = List.range' 1 (((analyze_consecutive_stops_by_test_stage stops).filter
          (fun r => r.sequence_id == j)).length) := by
  cases stops with
  | nil => intro j; rfl
  | cons b bs =>
    intro j
    have h1 : analyze_consecutive_stops_by_test_stage (b :: bs)
        = seqScan 0 none (fun _ => 0) (sort_by_test_stage_time (b :: bs)) := by
      simp [analyze_consecutive_stops_by_test_stage]
    rw [h1]
    cases hL : sort_by_test_stage_time (b :: bs) with
    | nil => rfl
    | cons e es =>
      have hcond : some (seqKey e) ≠ (none : Option Key) := by simp
      simp only [seqScan, if_pos hcond]
      obtain ⟨-, ihM⟩ := seqScan_filter_index es (0 + 1) (seqKey e)
        (fun k2 => if k2 = seqKey e then 1 else 0) j
      by_cases hj : j = 0 + 1
      · subst hj
        rw [List.filter_cons, if_pos (by simp)]
        rw [List.map_cons, List.length_cons]
        rw [if_pos rfl, if_pos rfl] at ihM
        rw [List.range'_succ, ihM]
      · have hbe : ((0 + 1) == j) = false := beq_eq_false_iff_ne.mpr (fun h => hj h.symm)
        simp only [List.filter_cons, hbe, Bool.false_eq_true, if_false]
        rw [if_neg hj] at ihM
        exact ihM

theorem foldl_min_mem (l : List Nat) : ∀ a, l.foldl min a ∈ a :: l := by
  induction l with
  | nil => intro a; exact List.mem_singleton.mpr rfl
  | cons x xs ih =>
    intro a
    have hm : min a x = a ∨ min a x = x := by omega
    simp only [List.foldl_cons]
    rcases List.mem_cons.mp (ih (min a x)) with h1 | h1
    · rcases hm with h2 | h2
      · rw [h1, h2]; exact List.mem_cons_self _ _
      · rw [h1, h2]; exact List.mem_cons_of_mem _ (List.mem_cons_self _ _)
    · exact List.mem_cons_of_mem _ (List.mem_cons_of_mem _ h1)

theorem foldl_min_le (l : List Nat) : ∀ a, ∀ x ∈ a :: l, l.foldl min a ≤ x := by
  induction l with
  | nil =>
    intro a x hx
    rw [List.mem_singleton] at hx
    simp only [List.foldl_nil]
    omega
  | cons y ys ih =>
    intro a x hx
    simp only [List.foldl_cons]
    have hhead := ih (min a y) (min a y) (List.mem_cons_self _ _)
    rcases List.mem_cons.mp hx with rfl | hx2
    · omega
    · rcases List.mem_cons.mp hx2 with rfl | hx3
      · omega
      · exact ih (min a y) x (List.mem_cons_of_mem _ hx3)

theorem foldl_max_mem (l : List Nat) : ∀ a, l.foldl max a ∈ a :: l := by
  induction l with
  | nil => intro a; exact List.mem_singleton.mpr rfl
  | cons x xs ih =>
    intro a
    have hm : max a x = a ∨ max a x = x := by omega
    simp only [List.foldl_cons]
    rcases List.mem_cons.mp (ih (max a x)) with h1 | h1
    · rcases hm with h2 | h2
      · rw [h1, h2]; exact List.mem_cons_self _ _
      · rw [h1, h2]; exact List.mem_cons_of_mem _ (List.mem_cons_self _ _)
    · exact List.mem_cons_of_mem _ (List.mem_cons_of_mem _ h1)

theorem foldl_max_ge (l : List Nat) : ∀ a, ∀ x ∈ a :: l, x ≤ l.foldl max a := by
  induction l with
  | nil =>
    intro a x hx
    rw [List.mem_singleton] at hx
    simp only [List.foldl_nil]
    omega
  | cons y ys ih =>
    intro a x hx
    simp only [List.foldl_cons]
    have hhead := ih (max a y) (max a y) (List.mem_cons_self _ _)
    rcases List.mem_cons.mp hx with rfl | hx2
    · omega
    · rcases List.mem_cons.mp hx2 with rfl | hx3
      · omega
      · exact ih (max a y) x (List.mem_cons_of_mem _ hx3)

/-- `firstCell` of a projected column is the head of the row-level
`filterMap`. -/
theorem firstCell_map (f : SeqRow → Cell) (l : List SeqRow) :
    firstCell (l.map f) = (l.filterMap f).head? := by
  unfold firstCell
  rw [List.filterMap_map, Function.id_comp]

/-- A produced summary row carries its group key as sequence_id. -/
theorem aggGroup_id {rows : List SeqRow} {k : Nat} {s : SummaryRow}
    (h : aggGroup rows k = some s) : s.sequence_id = k := by
  unfold aggGroup at h
  cases hg : rows.filter (fun r => r.sequence_id == k) with
  | nil => rw [hg] at h; cases h
  | cons g gs => rw [hg] at h; injection h with h; rw [← h]

/-- A nonempty group always aggregates to a row. -/
theorem aggGroup_isSome_of {rows : List SeqRow} {k : Nat} {g : SeqRow} {gs : List SeqRow}
    (hg : rows.filter (fun r => r.sequence_id == k) = g :: gs) :
    ∃ s, aggGroup rows k = some s := by
  unfold aggGroup
  rw [hg]
  exact ⟨_, rfl⟩

theorem map_id_filterMap_aggGroup (rows : List SeqRow) :
    ∀ keys : List Nat,
      (∀ k ∈ keys, rows.filter (fun r => r.sequence_id == k) ≠ []) →
      (keys.filterMap (aggGroup rows)).map (fun s => s.sequence_id) = keys := by
  intro keys
  induction keys with
  | nil => intro _; rfl
  | cons k ks ih =>
    intro h
    have hk := h k (List.mem_cons_self _ _)
    cases hg : rows.filter (fun r => r.sequence_id == k) with
    | nil => exact absurd hg hk
    | cons g gs =>
      obtain ⟨s, hs⟩ := aggGroup_isSome_of hg
      simp only [List.filterMap_cons, hs, List.map_cons]
      rw [ih (fun k2 hk2 => h k2 (List.mem_cons_of_mem _ hk2)), aggGroup_id hs]

/-- The summary has pairwise distinct sequence ids, and exactly the ids
present among the input rows. -/
theorem summarize_ids (rows : List SeqRow) :
    ((summarize_sequences_by_test_stage rows).map (fun s => s.sequence_id)).Nodup ∧
      ∀ k, k ∈ (summarize_sequences_by_test_stage rows).map (fun s => s.sequence_id)
        ↔ k ∈ rows.map (fun r => r.sequence_id) := by
  have hperm := List.perm_insertionSort (fun a b : Nat => a ≤ b)
    ((rows.map (fun r => r.sequence_id)).dedup)
  have hne : ∀ k ∈ List.insertionSort (fun a b : Nat => a ≤ b)
      ((rows.map (fun r => r.sequence_id)).dedup),
      rows.filter (fun r => r.sequence_id == k) ≠ [] := by
    intro k hk
    have hk2 : k ∈ rows.map (fun r => r.sequence_id) :=
      List.mem_dedup.mp (hperm.mem_iff.mp hk)
    rcases List.mem_map.mp hk2 with ⟨r, hr, hrk⟩
    have : r ∈ rows.filter (fun r => r.sequence_id == k) :=
      List.mem_filter.mpr ⟨hr, beq_iff_eq.mpr hrk⟩
    exact List.ne_nil_of_mem this
  have hmap : (summarize_sequences_by_test_stage rows).map (fun s => s.sequence_id)
      = List.insertionSort (fun a b : Nat => a ≤ b)
          ((rows.map (fun r => r.sequence_id)).dedup) :=
    map_id_filterMap_aggGroup rows _ hne
  constructor
  · rw [hmap]
    exact hperm.symm.nodup (List.nodup_dedup _)
  · intro k
    rw [hmap, hperm.mem_iff, List.mem_dedup]

/-- What membership in the summary means, in terms of the member's group. -/
theorem summarize_mem_spec (rows : List SeqRow) (s : SummaryRow)
    (hs : s ∈ summarize_sequences_by_test_stage rows) :
    ∃ g gs, rows.filter (fun r => r.sequence_id == s.sequence_id) = g :: gs ∧
      s.start_time = gs.foldl (fun a r => min a r.test_datetime) g.test_datetime ∧
      s.end_time = gs.foldl (fun a r => max a r.test_datetime) g.test_datetime ∧
      s.num_stops = gs.foldl (fun a r => max a r.sequence_index) g.sequence_index ∧
      s.user_name = g.user_name ∧
      s.test_name = firstCell ((g :: gs).map (fun r => r.test_name)) ∧
      s.part_number = firstCell ((g :: gs).map (fun r => r.part_number)) ∧
      s.stage_serial = firstCell ((g :: gs).map (fun r => r.stage_serial)) := by
  unfold summarize_sequences_by_test_stage at hs
  rcases List.mem_filterMap.mp hs with ⟨k, hk, hfk⟩
  unfold aggGroup at hfk
  cases hg : rows.filter (fun r => r.sequence_id == k) with
  | nil => rw [hg] at hfk; cases hfk
  | cons g gs =>
    rw [hg] at hfk
    injection hfk with hfk
    subst hfk
    exact ⟨g, gs, hg, rfl, rfl, rfl, rfl, rfl, rfl, rfl⟩

/-- The user-name normalization of `filter_stops` is idempotent. -/
theorem pyNorm_idem (s : Str) :
    pyLower (pyStrip (pyLower (pyStrip s))) = pyLower (pyStrip s) := by
  rw [pyStrip_pyLower, pyStrip_idem, pyLower_idem]

/-! ### Claims -/

/-- C7: on the empty Stop Event collection the analyzer and the summarizer
return empty tables (of the output row types, which carry the extra columns),
no exception is modelled anywhere (all functions are total), and `main`
renders neither the four bar charts nor the histogram. -/
theorem empty_input_all_outputs_empty :
    analyze_consecutive_stops_by_test_stage [] = []
      ∧ summarize_sequences_by_test_stage (analyze_consecutive_stops_by_test_stage []) = []
      ∧ charts_emitted []
          (summarize_sequences_by_test_stage (analyze_consecutive_stops_by_test_stage [])) = [] :=
  ⟨rfl, rfl, rfl⟩

/-- C4: a Stop Event arises only from an input row whose status cell, after
whitespace trimming and case-insensitive comparison, equals the stop marker
"Stopped"; rows not matching never contribute an event. -/
theorem stop_events_only_from_stop_rows (parse : Str → Option Nat)
    (df : List RawRow) (e : StopEvent) (he : e ∈ filter_stops parse df) :
    ∃ r ∈ df, stopPred r = true ∧
      ∃ t, normalize_datetime parse r.testDatetime = some t ∧ e = projectRow r t :=
  (mem_filter_stops parse df e).mp he

theorem stop_events_only_from_stop_rows_witness :
    ∃ r ∈ [demoRow1], stopPred r = true ∧
      ∃ t, normalize_datetime digitParse r.testDatetime = some t ∧
        projectRow demoRow1 3 = projectRow r t :=
  stop_events_only_from_stop_rows digitParse [demoRow1] (projectRow demoRow1 3) (by decide)

/-- C5: the Stop Event collection is sorted with non-decreasing timestamps
(the rows with a missing normalized timestamp having been dropped before the
sort). -/
theorem stop_events_time_sorted (parse : Str → Option Nat) (df : List RawRow) :
    List.Pairwise (fun a b => a.test_datetime ≤ b.test_datetime)
      (filter_stops parse df) :=
  List.sorted_insertionSort timeRel (projectedOf parse df)

/-- C8: timestamp coercion never raises — the normalizer is total and maps an
unparseable cell to missing — and a stop row whose timestamp did not parse is
excluded entirely: the Stop Events are exactly as many as the stop-filtered
rows with a parseable timestamp. -/
theorem unparseable_timestamp_rows_excluded (parse : Str → Option Nat) (df : List RawRow) :
    (∀ s, parse s = none → normalize_datetime parse (some s) = none) ∧
      (filter_stops parse df).length =
        ((df.filter stopPred).filter
          (fun r => (normalize_datetime parse r.testDatetime).isSome)).length := by
  constructor
  · intro s h
    simp [normalize_datetime, h]
  · rw [show filter_stops parse df = List.insertionSort timeRel (projectedOf parse df) from rfl,
      (List.perm_insertionSort timeRel (projectedOf parse df)).length_eq]
    unfold projectedOf
    rw [length_filterMap_isSome]
    congr 1
    apply List.filter_congr
    intro r _
    cases normalize_datetime parse r.testDatetime <;> simp

theorem unparseable_timestamp_rows_excluded_witness :
    normalize_datetime digitParse (some "oops".data) = none ∧
      (filter_stops digitParse [demoRow1, demoRow3]).length =
        (([demoRow1, demoRow3].filter stopPred).filter
          (fun r => (normalize_datetime digitParse r.testDatetime).isSome)).length :=
  ⟨(unparseable_timestamp_rows_excluded digitParse []).1 "oops".data (by decide),
   (unparseable_timestamp_rows_excluded digitParse [demoRow1, demoRow3]).2⟩

/-- C9: the analyzer only re-orders: erasing the two added columns from its
output gives exactly the input re-sorted by (test_name, stage_serial,
test_datetime), a permutation of the input — no row is dropped, duplicated,
or edited in its five original columns. -/
theorem analyzer_preserves_rows (stops : List StopEvent) :
    ((analyze_consecutive_stops_by_test_stage stops).map (fun r => r.toStopEvent))
        = sort_by_test_stage_time stops
      ∧ ((analyze_consecutive_stops_by_test_stage stops).map
          (fun r => r.toStopEvent)).Perm stops := by
  have hsort : (sort_by_test_stage_time stops).Perm stops :=
    List.perm_insertionSort keyRel stops
  cases stops with
  | nil => exact ⟨rfl, List.Perm.nil⟩
  | cons a l =>
    have h1 : analyze_consecutive_stops_by_test_stage (a :: l)
        = seqScan 0 none (fun _ => 0) (sort_by_test_stage_time (a :: l)) := by
      simp [analyze_consecutive_stops_by_test_stage]
    rw [h1, seqScan_map_toStopEvent]
    exact ⟨rfl, hsort⟩

/-- C10: a stop row with a parseable timestamp always yields a Stop Event, and
when its user cell is missing (NaN) the event's user_name is the literal
lowercase string "nan" — the str() rendering of the missing value — so it is
a non-null string forming its own per-user category. -/
theorem missing_user_becomes_nan (parse : Str → Option Nat) (df : List RawRow)
    (r : RawRow) (t : Nat) (hr : r ∈ df) (hp : stopPred r = true)
    (ht : normalize_datetime parse r.testDatetime = some t) :
    projectRow r t ∈ filter_stops parse df ∧
      (r.user = none → (projectRow r t).user_name = "nan".data) := by
  constructor
  · exact (mem_filter_stops parse df (projectRow r t)).mpr ⟨r, hr, hp, t, ht, rfl⟩
  · intro hu
    show pyLower (pyStrip (cellToStr r.user)) = "nan".data
    rw [hu]
    decide

/-- C1: over the analyzer's (test_name, stage_serial, test_datetime)-sorted
output, sequence_id increments exactly at rows whose (test_name,
stage_serial) key differs from the previous row's (the first row starts at
id 1, index 1); sequence_index resets to 1 at each such boundary and
increments by 1 otherwise.  No time-window or user-identity condition
appears: key equality alone decides every boundary. -/
theorem sequence_boundaries_exact (stops : List StopEvent) (out : List SeqRow)
    (hout : out = analyze_consecutive_stops_by_test_stage stops) :
    (∀ a l, out = a :: l → a.sequence_id = 1 ∧ a.sequence_index = 1) ∧
      ∀ i (hi : i + 1 < out.length),
        (seqKey (out.get ⟨i + 1, by omega⟩).toStopEvent
            = seqKey (out.get ⟨i, by omega⟩).toStopEvent →
          (out.get ⟨i + 1, by omega⟩).sequence_id = (out.get ⟨i, by omega⟩).sequence_id ∧
            (out.get ⟨i + 1, by omega⟩).sequence_index
              = (out.get ⟨i, by omega⟩).sequence_index + 1) ∧
        (seqKey (out.get ⟨i + 1, by omega⟩).toStopEvent
            ≠ seqKey (out.get ⟨i, by omega⟩).toStopEvent →
          (out.get ⟨i + 1, by omega⟩).sequence_id
              = (out.get ⟨i, by omega⟩).sequence_id + 1 ∧
            (out.get ⟨i + 1, by omega⟩).sequence_index = 1) := by
  subst hout
  obtain ⟨hchain, hhead⟩ := analyze_chain stops
  refine ⟨hhead, ?_⟩
  intro i hi
  have hstep := List.chain'_iff_get.mp hchain i (by omega)
  by_cases hc : seqKey ((analyze_consecutive_stops_by_test_stage stops).get
      ⟨i + 1, by omega⟩).toStopEvent
      = seqKey ((analyze_consecutive_stops_by_test_stage stops).get
        ⟨i, by omega⟩).toStopEvent
  · rw [chainStep, if_pos hc] at hstep
    exact ⟨fun _ => hstep, fun hne => absurd hc hne⟩
  · rw [chainStep, if_neg hc] at hstep
    exact ⟨fun h => absurd h hc, fun _ => hstep⟩

theorem sequence_boundaries_exact_witness :
    (demoOut.get ⟨1, by decide⟩).sequence_id = (demoOut.get ⟨0, by decide⟩).sequence_id ∧
      (demoOut.get ⟨1, by decide⟩).sequence_index
        = (demoOut.get ⟨0, by decide⟩).sequence_index + 1 :=
  ((sequence_boundaries_exact demoStops demoOut rfl).2 0 (by decide)).1 (by decide)

/-- C2: the sequence_id values of the analyzer output form the contiguous
run 1..K — a value occurs iff it lies between 1 and the last id K, and K is
the number of distinct sequences (distinct id values); within each
sequence_id the sequence_index values are exactly 1..N where N is the number
of events of that sequence. -/
theorem sequence_ids_and_indices_contiguous (stops : List StopEvent) (out : List SeqRow)
    (hout : out = analyze_consecutive_stops_by_test_stage stops) :
    (∀ j, j ∈ out.map (fun r => r.sequence_id) ↔
        1 ≤ j ∧ j ≤ (out.map (fun r => r.sequence_id)).getLastD 0) ∧
      ((out.map (fun r => r.sequence_id)).dedup).length
          = (out.map (fun r => r.sequence_id)).getLastD 0 ∧
      ∀ k, ((out.filter (fun r => r.sequence_id == k)).map (fun r => r.sequence_index))
          = List.range' 1 ((out.filter (fun r => r.sequence_id == k)).length) := by
  have hIdx : ∀ k, ((out.filter (fun r => r.sequence_id == k)).map
        (fun r => r.sequence_index))
      = List.range' 1 ((out.filter (fun r => r.sequence_id == k)).length) := by
    rw [hout]; exact analyze_filter_index stops
  have hmem : ∀ j, j ∈ out.map (fun r => r.sequence_id) ↔
      1 ≤ j ∧ j ≤ (out.map (fun r => r.sequence_id)).getLastD 0 := by
    rcases hO : out with - | ⟨o, os⟩
    · intro j
      simp only [List.map_nil, List.getLastD]
      constructor
      · intro h
        exact absurd h (List.not_mem_nil j)
      · intro h
        exact absurd h (by omega)
    · have hho := (analyze_chain stops).2 o os (by rw [← hout, hO])
      have hch := (analyze_chain stops).1
      rw [← hout, hO] at hch
      have h2 : List.Chain (fun a b : SeqRow =>
          b.sequence_id = a.sequence_id ∨ b.sequence_id = a.sequence_id + 1) o os := by
        refine List.Chain.imp ?_ hch
        intro a b h
        by_cases hc : seqKey b.toStopEvent = seqKey a.toStopEvent
        · rw [chainStep, if_pos hc] at h; exact Or.inl h.1
        · rw [chainStep, if_neg hc] at h; exact Or.inr h.1
      have hnat := (@List.chain_map Nat SeqRow (fun x y => y = x ∨ y = x + 1)
        (fun r => r.sequence_id) o os).mpr h2
      intro j
      rw [List.map_cons, hho.1]
      rw [hho.1] at hnat
      exact chain_nat_run _ 1 hnat j
  refine ⟨hmem, ?_, hIdx⟩
  have h1 : (out.map (fun r => r.sequence_id)).toFinset
      = Finset.Icc 1 ((out.map (fun r => r.sequence_id)).getLastD 0) := by
    ext j
    simp only [List.mem_toFinset, Finset.mem_Icc]
    exact hmem j
  have h2 := List.card_toFinset (out.map (fun r => r.sequence_id))
  rw [h1, Nat.card_Icc] at h2
  omega

theorem sequence_ids_and_indices_contiguous_witness :
    2 ∈ demoOut.map (fun r => r.sequence_id) ∧
      ((demoOut.filter (fun r => r.sequence_id == 1)).map (fun r => r.sequence_index))
        = List.range' 1 ((demoOut.filter (fun r => r.sequence_id == 1)).length) :=
  ⟨((sequence_ids_and_indices_contiguous demoStops demoOut rfl).1 2).mpr (by decide),
   (sequence_ids_and_indices_contiguous demoStops demoOut rfl).2.2 1⟩

/-- C3 (amended): the Sequence Summary has exactly one row per sequence_id
occurring in the annotated rows (distinct ids, same id set); each summary
row's start_time is the minimum test_datetime of its group, end_time the
maximum, num_stops the maximum sequence_index — which equals the number of
events of the group; user_name is the group's first value (that column is
string-rendered, hence never null), and test_name, part_number and
stage_serial are the group's first non-null values (pandas `GroupBy.first`),
null only when the whole column of the group is null. -/
theorem sequence_summary_correct (stops : List StopEvent) (rows : List SeqRow)
    (hrows : rows = analyze_consecutive_stops_by_test_stage stops) :
    ((summarize_sequences_by_test_stage rows).map (fun s => s.sequence_id)).Nodup ∧
      (∀ k, k ∈ (summarize_sequences_by_test_stage rows).map (fun s => s.sequence_id)
          ↔ k ∈ rows.map (fun r => r.sequence_id)) ∧
      ∀ s ∈ summarize_sequences_by_test_stage rows,
        rows.filter (fun r => r.sequence_id == s.sequence_id) ≠ [] ∧
        s.start_time ∈ (rows.filter (fun r => r.sequence_id == s.sequence_id)).map
            (fun r => r.test_datetime) ∧
        (∀ t ∈ (rows.filter (fun r => r.sequence_id == s.sequence_id)).map
            (fun r => r.test_datetime), s.start_time ≤ t) ∧
        s.end_time ∈ (rows.filter (fun r => r.sequence_id == s.sequence_id)).map
            (fun r => r.test_datetime) ∧
        (∀ t ∈ (rows.filter (fun r => r.sequence_id == s.sequence_id)).map
            (fun r => r.test_datetime), t ≤ s.end_time) ∧
        s.num_stops = (rows.filter (fun r => r.sequence_id == s.sequence_id)).length ∧
        (∀ r ∈ rows.filter (fun r => r.sequence_id == s.sequence_id),
          r.sequence_index ≤ s.num_stops) ∧
        ∃ h0, (rows.filter (fun r => r.sequence_id == s.sequence_id)).head? = some h0 ∧
          s.user_name = h0.user_name ∧
          s.test_name = ((rows.filter (fun r => r.sequence_id == s.sequence_id)).filterMap
              (fun r => r.test_name)).head? ∧
          s.part_number = ((rows.filter (fun r => r.sequence_id == s.sequence_id)).filterMap
              (fun r => r.part_number)).head? ∧
          s.stage_serial = ((rows.filter (fun r => r.sequence_id == s.sequence_id)).filterMap
              (fun r => r.stage_serial)).head? := by
  obtain ⟨hnodup, hkeys⟩ := summarize_ids rows
  refine ⟨hnodup, hkeys, ?_⟩
  intro s hs
  obtain ⟨g, gs, hg, hstart, hend, hnum, hu, htn, hpn, hss⟩ := summarize_mem_spec rows s hs
  have hIdx : (rows.filter (fun r => r.sequence_id == s.sequence_id)).map
      (fun r => r.sequence_index)
      = List.range' 1 ((rows.filter (fun r => r.sequence_id == s.sequence_id)).length) := by
    rw [hrows]
    exact analyze_filter_index stops s.sequence_id
  rw [hg, List.map_cons, List.length_cons] at hIdx
  have hstart2 : s.start_time
      = (gs.map (fun r => r.test_datetime)).foldl min g.test_datetime := by
    rw [hstart, List.foldl_map]
  have hend2 : s.end_time
      = (gs.map (fun r => r.test_datetime)).foldl max g.test_datetime := by
    rw [hend, List.foldl_map]
  have hnum2 : s.num_stops
      = (gs.map (fun r => r.sequence_index)).foldl max g.sequence_index := by
    rw [hnum, List.foldl_map]
  refine ⟨?_, ?_, ?_, ?_, ?_, ?_, ?_, ?_⟩
  · rw [hg]; exact List.cons_ne_nil g gs
  · rw [hg, List.map_cons, hstart2]
    exact foldl_min_mem _ _
  · intro t ht
    rw [hg, List.map_cons] at ht
    rw [hstart2]
    exact foldl_min_le _ _ t ht
  · rw [hg, List.map_cons, hend2]
    exact foldl_max_mem _ _
  · intro t ht
    rw [hg, List.map_cons] at ht
    rw [hend2]
    exact foldl_max_ge _ _ t ht
  · have hmem := foldl_max_mem (gs.map (fun r => r.sequence_index)) g.sequence_index
    rw [hIdx, List.mem_range'_1] at hmem
    have hNmem : gs.length + 1 ∈ g.sequence_index :: gs.map (fun r => r.sequence_index) := by
      rw [hIdx, List.mem_range'_1]
      omega
    have hge := foldl_max_ge (gs.map (fun r => r.sequence_index)) g.sequence_index
      (gs.length + 1) hNmem
    rw [hg, List.length_cons, hnum2]
    omega
  · intro r hr
    rw [hg] at hr
    rw [hnum2]
    rcases List.mem_cons.mp hr with rfl | hr2
    · exact foldl_max_ge _ _ _ (List.mem_cons_self _ _)
    · exact foldl_max_ge _ _ _ (List.mem_cons_of_mem _ (List.mem_map_of_mem _ hr2))
  · rw [hg]
    refine ⟨g, rfl, hu, ?_, ?_, ?_⟩
    · rw [htn]
      exact firstCell_map _ _
    · rw [hpn]
      exact firstCell_map _ _
    · rw [hss]
      exact firstCell_map _ _

/-- Counterexample to C3 as originally stated ("the categorical columns are
the first-occurring values within the group"): on `ctStops` the unique
summary row belongs to sequence 1 and carries part_number P9, while the
group's first row — the first-occurring value — has a missing part_number.
pandas `"first"` skips nulls, so the program output differs from the
group-head reading of the claim. -/
theorem summary_part_number_not_group_head :
    ctSummaryRow ∈ summarize_sequences_by_test_stage
        (analyze_consecutive_stops_by_test_stage ctStops) ∧
      ((analyze_consecutive_stops_by_test_stage ctStops).filter
          (fun r => r.sequence_id == ctSummaryRow.sequence_id)).head?.map
          (fun r => r.part_number) = some none ∧
      ctSummaryRow.part_number ≠ none := by decide

theorem sequence_summary_correct_witness :
    demoOut.filter (fun r => r.sequence_id == demoSummaryRow.sequence_id) ≠ [] ∧
      demoSummaryRow.num_stops
        = (demoOut.filter (fun r => r.sequence_id == demoSummaryRow.sequence_id)).length :=
  ⟨((sequence_summary_correct demoStops demoOut rfl).2.2 demoSummaryRow (by decide)).1,
   ((sequence_summary_correct demoStops demoOut rfl).2.2 demoSummaryRow
      (by decide)).2.2.2.2.2.1⟩

/-- C6: every Stop Event's user_name equals its own whitespace-trimmed,
lower-cased form: the normalization is applied to every row and is idempotent
on the output. -/
theorem user_names_normalized (parse : Str → Option Nat) (df : List RawRow)
    (e : StopEvent) (he : e ∈ filter_stops parse df) :
    pyLower (pyStrip e.user_name) = e.user_name := by
  rcases (mem_filter_stops parse df e).mp he with ⟨r, -, -, t, -, he'⟩
  rw [he']
  exact pyNorm_idem (cellToStr r.user)

theorem user_names_normalized_witness :
    pyLower (pyStrip (projectRow demoRow1 3).user_name) = (projectRow demoRow1 3).user_name :=
  user_names_normalized digitParse [demoRow1] (projectRow demoRow1 3) (by decide)

theorem missing_user_becomes_nan_witness :
    projectRow demoRow2 5 ∈ filter_stops digitParse [demoRow2] ∧
      (projectRow demoRow2 5).user_name = "nan".data :=
  ⟨(missing_user_becomes_nan digitParse [demoRow2] demoRow2 5 (by decide) (by decide)
      (by decide)).1,
   (missing_user_becomes_nan digitParse [demoRow2] demoRow2 5 (by decide) (by decide)
      (by decide)).2 rfl⟩

end RunLog
